import Mathlib

/- Verification development for the binary communication layer of a distributed
dataflow runtime (communication/communicator/binary.rs).

Shallow embedding conventions:
- Rust `panic!`/`assert!`/`.unwrap()` failures are modelled by returning `Option.none`
  from the operation; a `some` result is a normal return.
- `std::sync::mpsc` channels are modelled by the liveness of their receiving end:
  a `Bool` that is `true` while the receiving thread is alive.  `Sender::send`
  succeeds exactly when the receiver is alive; on a dead receiver it returns an
  error (which `.unwrap()` turns into a panic, and `.ok()` swallows).
- Byte buffers (`Vec<u8>`) are `List Nat`; the serialization codec is passed in as
  explicit encode/decode functions, matching the `Serializable` interface the code
  consumes (`encode(value, &mut buffer)`, `decode(&mut buffer) -> (value, rest)`).
- Machine integers (`usize`) are `Nat`; none of the verified arithmetic overflows. -/

/- MessageHeader from networking::networking, as used by binary.rs: graph id,
channel id, source worker, target worker, and payload byte length. -/
structure MessageHeader where
  graph   : Nat
  channel : Nat
  source  : Nat
  target  : Nat
  length  : Nat
deriving DecidableEq

/- Observer (binary.rs lines 85-101): a push endpoint holding its construction-time
header, the outbound queue handle (modelled by the liveness of the network writer
thread draining it), and the currently open timestamp (`time: Option<T>`). -/
structure Observer (T : Type) where
  header      : MessageHeader
  senderAlive : Bool
  time        : Option T
deriving DecidableEq

/- Observer::new (binary.rs lines 93-100): fresh endpoint with no open timestamp. -/
def Observer.new (T : Type) (header : MessageHeader) (senderAlive : Bool) : Observer T :=
  { header := header, senderAlive := senderAlive, time := none }

/- Observer::open (binary.rs lines 107-110); named openTime because `open` is a
Lean keyword.  `assert!(self.time.is_none())` panics (none) on a double open;
otherwise the clone of the given time is stored. -/
def Observer.openTime {T : Type} (o : Observer T) (t : T) : Option (Observer T) :=
  match o.time with
  | some _ => none
  | none   => some { o with time := some t }

/- Observer::shut (binary.rs lines 111-114): `assert!(self.time.is_some())` panics
(none) when no timestamp is open; otherwise the time is cleared.  The `_time`
argument is ignored by the code. -/
def Observer.shut {T : Type} (o : Observer T) (_t : T) : Option (Observer T) :=
  match o.time with
  | none   => none
  | some _ => some { o with time := none }

/- Observer::give (binary.rs lines 115-137).  Returns the endpoint after the call,
the list of (header, buffer) pairs enqueued on the outbound queue by this call,
and the number of byte-buffer allocations performed.  `assert!(self.time.is_some())`
panics (none) without an open timestamp.  For a non-empty batch, one buffer is
allocated holding encode(time) followed by encode(records); the header copy gets
its length field set to the buffer size; `sender.send(..).ok()` enqueues the pair
when the receiver is alive and silently drops it otherwise. -/
def Observer.give {T D : Type} (encT : T → List Nat) (encD : List D → List Nat)
    (o : Observer T) (data : List D) :
    Option (Observer T × List (MessageHeader × List Nat) × Nat) :=
  match o.time with
  | none => none
  | some time =>
    if 0 < data.length then
      let bytes : List Nat := encT time ++ encD data
      let header : MessageHeader := { o.header with length := bytes.length }
      let sent := if o.senderAlive then [(header, bytes)] else []
      some (o, sent, 1)
    else
      some (o, [], 0)

/- BinaryPullable (binary.rs lines 140-153): merges the local typed pull endpoint
with the network-backed inbound byte queue.  The field innerQueue is modelled from
the spec: the intra-process communicator's pull endpoint (an external collaborator,
not part of this source) is treated as a typed FIFO queue whose pull returns the
next (time, batch) pair when one is ready.  The receiver field is the inbound
queue of serialized buffers, a FIFO whose try_recv takes the head when present. -/
structure BinaryPullable (T D : Type) where
  innerQueue : List (T × List D)
  current    : Option (T × List D)
  receiver   : List (List Nat)
deriving DecidableEq

/- BinaryPullable::pull (binary.rs lines 156-177).  Returns the pulled pair (if
any) and the multiplexer state after the call; none models a panic.  decT is the
codec's decode for T (value plus remaining bytes); decD models, from the spec,
Message::from_bytes presenting the remaining bytes as the record sequence (the
Message type is external to this source; the codec fails fatally on malformed
input, so a decD failure is none).  When the inner endpoint has a pair it is
returned at once and the receiver is not consulted; otherwise try_recv is
attempted: on a received buffer, decode(T).unwrap() panics on failure, and
assert!(message.len() > 0) panics on an empty decoded batch. -/
def BinaryPullable.pull {T D : Type}
    (decT : List Nat → Option (T × List Nat)) (decD : List Nat → Option (List D))
    (p : BinaryPullable T D) :
    Option (Option (T × List D) × BinaryPullable T D) :=
  match p.innerQueue with
  | pair :: rest => some (some pair, { p with innerQueue := rest })
  | [] =>
    match p.receiver with
    | [] => some (none, { p with current := none })
    | bytes :: rest =>
      match decT bytes with
      | none => none
      | some (t, remaining) =>
        match decD remaining with
        | none => none
        | some records =>
          if 0 < records.length then
            some (some (t, records), { p with current := some (t, records), receiver := rest })
          else none

/- Binary (binary.rs lines 14-25): the communicator state.  The channel vectors
writers, readers and senders (one entry per remote peer group) are modelled by
the liveness of their receiving ends (the network threads); innerPeers records
the peer count of the inner Process communicator, whose value the code reads
via self.inner.peers(). -/
structure Binary where
  index      : Nat
  peers      : Nat
  graph      : Nat
  allocated  : Nat
  writers    : List Bool
  readers    : List Bool
  senders    : List Bool
  innerPeers : Nat
deriving DecidableEq

/- Push endpoints returned by new_channel: remote ones are Observers built from a
header and an outbound queue handle (binary.rs line 59); local ones are the
endpoints handed over by the inner Process communicator (binary.rs line 40),
identified here by their position in the inner_sends vector. -/
inductive PushEndpoint where
  | remote (header : MessageHeader) (senderAlive : Bool)
  | localPush (j : Nat)
deriving DecidableEq

/- Header constructed at binary.rs lines 46-58 for connection-list index g and
local offset c: target = g * inner_peers + c, incremented by inner_peers when
g >= self.index / inner_peers; channel is the current allocation counter. -/
def Binary.remoteHeader (b : Binary) (g c : Nat) : MessageHeader :=
  let target0 := g * b.innerPeers + c
  { graph   := b.graph
  , channel := b.allocated
  , source  := b.index
  , target  := if b.index / b.innerPeers ≤ g then target0 + b.innerPeers else target0
  , length  := 0 }

/- Iteration space of the nested loops at binary.rs lines 43-44: connection-list
index g over the writers vector, local offset c over 0..inner_peers. -/
def gcPairs (w ip : Nat) : List (Nat × Nat) :=
  (List.range w).flatMap (fun g => (List.range ip).map (fun c => (g, c)))

/- Loop body of binary.rs lines 43-60 over the listed (g, c) pairs: each
iteration sends the registration (index, graph, allocated) through writers[g]
and unwraps the result (none models the panic when that network thread has
exited), then clones senders[g] (none models the index panic when senders is
shorter than writers) and pushes an Observer for the computed header. -/
def Binary.remoteFor (b : Binary) : List (Nat × Nat) → Option (List PushEndpoint)
  | [] => some []
  | (g, c) :: rest =>
    match b.writers[g]? with
    | none => none
    | some wAlive =>
      if wAlive then
        match b.senders[g]? with
        | none => none
        | some sAlive =>
          (b.remoteFor rest).map (fun ps => PushEndpoint.remote (b.remoteHeader g c) sAlive :: ps)
      else none

/-- Modelled from the spec: the intra-process communicator (communication::communicator::Process,
an external collaborator not in this source) returns from new_channel one local
push endpoint per co-located peer worker excluding the caller itself, ordered by
local offset (spec section 2: the overall call yields N-1 push endpoints, one per
peer worker; section 8 scenario: one peer group with inner_peers = 2 yields
exactly one push endpoint, to worker 1, via local). -/
def innerSendEndpoints (ip : Nat) : List PushEndpoint :=
  (List.range (ip - 1)).map PushEndpoint.localPush

/- Vec::insert semantics (binary.rs line 65): insert at position i, shifting the
suffix; Rust panics (none) when i exceeds the current length. -/
def vecInsert {α : Type} (xs : List α) (i : Nat) (x : α) : Option (List α) :=
  if i ≤ xs.length then some (xs.take i ++ x :: xs.drop i) else none

/- Splice loop of binary.rs lines 64-66: the j-th element of inner_sends is
inserted at position pos + j. -/
def spliceAt {α : Type} (acc : List α) (pos : Nat) : List α → Option (List α)
  | [] => some acc
  | x :: xs =>
    match vecInsert acc pos x with
    | none => none
    | some acc2 => spliceAt acc2 (pos + 1) xs

/- Result of one new_channel call: the push endpoints, the registration messages
(index, graph, channel) sent to the writer and reader network threads, the one
pull endpoint, and the communicator state after the call. -/
structure ChannelAlloc (T D : Type) where
  pushers    : List PushEndpoint
  writerRegs : List (Nat × Nat × Nat)
  readerRegs : List (Nat × Nat × Nat)
  pullable   : BinaryPullable T D
  state      : Binary
deriving DecidableEq

/- Binary::new_channel (binary.rs lines 35-82).  Remote pushers are built per
(g, c) pair (registration unwraps may panic), the inner Process endpoints are
spliced in at positions (index / inner_peers) * inner_peers + j, one registration
per reader thread is sent and unwrapped (none models the panic on a dead reader),
the pull endpoint starts with fresh empty queues, and the allocation counter is
incremented.  Each writer registration sends the same (index, graph, allocated)
tuple, once per (g, c) iteration; each reader registration sends it once. -/
def Binary.newChannel (T D : Type) (b : Binary) : Option (ChannelAlloc T D) :=
  match b.remoteFor (gcPairs b.writers.length b.innerPeers) with
  | none => none
  | some remotes =>
    match spliceAt remotes ((b.index / b.innerPeers) * b.innerPeers)
        (innerSendEndpoints b.innerPeers) with
    | none => none
    | some pushers =>
      if b.readers.all (fun x => x) then
        some { pushers := pushers
             , writerRegs := List.replicate (b.writers.length * b.innerPeers)
                 (b.index, b.graph, b.allocated)
             , readerRegs := List.replicate b.readers.length (b.index, b.graph, b.allocated)
             , pullable := { innerQueue := [], current := none, receiver := [] }
             , state := { b with allocated := b.allocated + 1 } }
      else none

/- Destination global worker index of a push endpoint.  A remote endpoint's
destination is its header's target field.  A local endpoint's destination is
modelled from the spec: global worker index decomposes as group_index *
inner_peers + local_offset (spec section 3), and the j-th local endpoint (which
skips the caller itself) addresses the j-th other worker of the caller's group
in offset order. -/
def PushEndpoint.dest (ownGroup ip ownOffset : Nat) : PushEndpoint → Nat
  | .remote h _ => h.target
  | .localPush j => ownGroup * ip + (if j < ownOffset then j else j + 1)

/- Repeated channel allocation on one worker: k successive new_channel calls,
collecting each call's result and threading the communicator state. -/
def Binary.runChannels (T D : Type) (b : Binary) : Nat → Option (List (ChannelAlloc T D) × Binary)
  | 0 => some ([], b)
  | k + 1 =>
    match b.newChannel T D with
    | none => none
    | some a =>
      match Binary.runChannels T D a.state k with
      | none => none
      | some (rest, bk) => some (a :: rest, bk)

/- Concrete communicator configurations used to instantiate the theorems:
fields are index, peers, graph, allocated, writers, readers, senders, innerPeers. -/

/- Worker 3 of 6, middle peer group (group 1 of 3), two workers per process. -/
def bMid : Binary := ⟨3, 6, 0, 0, [true, true], [true, true], [true, true], 2⟩

/- Worker 0 of 2, one remote peer group, one worker per process. -/
def bSmall : Binary := ⟨0, 2, 0, 0, [true], [true], [true], 1⟩

/- Same topology as bAllAlive but the writer network thread has exited. -/
def bDeadWriter : Binary := ⟨0, 4, 0, 0, [false], [true], [true], 2⟩

/- Worker 0 of 4, one remote peer group, all network threads alive. -/
def bAllAlive : Binary := ⟨0, 4, 0, 0, [true], [true], [true], 2⟩

/- Same topology as bAllAlive but the reader network thread has exited. -/
def bDeadReader : Binary := ⟨0, 4, 0, 0, [true], [false], [true], 2⟩

/-- C4: for every give of a non-empty batch on an open push endpoint with a live
outbound queue, exactly one (header, buffer) pair is enqueued, the buffer is
encode(time) immediately followed by encode(records) with no padding, and the
enqueued header is the construction-time header with only its length field
replaced by the buffer's byte length; exactly one allocation occurs and the
endpoint state is unchanged. -/
theorem give_frames_exactly_once {T D : Type} (encT : T → List Nat) (encD : List D → List Nat)
    (o : Observer T) (t : T) (data : List D)
    (hopen : o.time = some t) (halive : o.senderAlive = true) (hne : data ≠ []) :
    Observer.give encT encD o data =
      some (o, [({ o.header with length := (encT t ++ encD data).length },
                 encT t ++ encD data)], 1) := by
  unfold Observer.give
  rw [hopen, halive]
  simp [List.length_pos.mpr hne]

theorem give_frames_exactly_once_witness :
    Observer.give (fun t => [t]) (fun l => l)
        ({ header := ⟨1, 2, 3, 4, 0⟩, senderAlive := true, time := some 5 } : Observer Nat)
        [7, 8] =
      some ({ header := ⟨1, 2, 3, 4, 0⟩, senderAlive := true, time := some 5 },
            [(⟨1, 2, 3, 4, 3⟩, [5, 7, 8])], 1) := by
  simpa using give_frames_exactly_once (fun t => [t]) (fun l => l)
    ({ header := ⟨1, 2, 3, 4, 0⟩, senderAlive := true, time := some 5 } : Observer Nat)
    5 [7, 8] rfl rfl (by decide)

/-- C5: on every push endpoint, open while a timestamp is already open is fatal,
and give or shut while no timestamp is open is fatal; open stores the given
time, and shut returns the endpoint to the closed state. -/
theorem observer_state_protocol {T D : Type} (encT : T → List Nat) (encD : List D → List Nat)
    (o : Observer T) (t : T) (data : List D) :
    (o.time ≠ none → o.openTime t = none) ∧
    (o.time = none → Observer.give encT encD o data = none ∧ o.shut t = none) ∧
    (o.time = none → o.openTime t = some { o with time := some t }) ∧
    (o.time ≠ none → o.shut t = some { o with time := none }) := by
  refine ⟨?_, ?_, ?_, ?_⟩ <;> intro h <;>
    cases ho : o.time <;>
      simp_all [Observer.openTime, Observer.shut, Observer.give]

theorem observer_state_protocol_witness :
    (({ header := ⟨0, 0, 0, 1, 0⟩, senderAlive := true, time := some 5 } : Observer Nat).openTime 6
        = none) ∧
    (Observer.give (fun t => [t]) (fun l => l)
        ({ header := ⟨0, 0, 0, 1, 0⟩, senderAlive := true, time := none } : Observer Nat) [3]
        = none) ∧
    (({ header := ⟨0, 0, 0, 1, 0⟩, senderAlive := true, time := none } : Observer Nat).shut 6
        = none) := by
  refine ⟨?_, ?_, ?_⟩
  · exact (observer_state_protocol (fun t => [t]) (fun l => l)
      ({ header := ⟨0, 0, 0, 1, 0⟩, senderAlive := true, time := some 5 } : Observer Nat)
      6 [3]).1 (by decide)
  · exact ((observer_state_protocol (fun t => [t]) (fun l => l)
      ({ header := ⟨0, 0, 0, 1, 0⟩, senderAlive := true, time := none } : Observer Nat)
      6 [3]).2.1 rfl).1
  · exact ((observer_state_protocol (fun t => [t]) (fun l => l)
      ({ header := ⟨0, 0, 0, 1, 0⟩, senderAlive := true, time := none } : Observer Nat)
      6 [3]).2.1 rfl).2

/-- C6: give with an empty batch on an open push endpoint produces no frame,
performs no allocation, and leaves the endpoint state unchanged. -/
theorem give_empty_no_frame {T D : Type} (encT : T → List Nat) (encD : List D → List Nat)
    (o : Observer T) (t : T) (hopen : o.time = some t) :
    Observer.give encT encD o ([] : List D) = some (o, [], 0) := by
  unfold Observer.give
  rw [hopen]
  simp

theorem give_empty_no_frame_witness :
    Observer.give (fun t => [t]) (fun l => l)
        ({ header := ⟨0, 0, 0, 1, 0⟩, senderAlive := true, time := some 9 } : Observer Nat)
        ([] : List Nat) =
      some ({ header := ⟨0, 0, 0, 1, 0⟩, senderAlive := true, time := some 9 }, [], 0) :=
  give_empty_no_frame (fun t => [t]) (fun l => l)
    ({ header := ⟨0, 0, 0, 1, 0⟩, senderAlive := true, time := some 9 } : Observer Nat) 9 rfl

/-- C10: shut's behaviour and resulting state are independent of its time
argument, which is never compared against the opened timestamp: shutting an
open endpoint with any time closes it. -/
theorem shut_ignores_time {T : Type} (o : Observer T) (t1 t2 : T) :
    o.shut t1 = o.shut t2 ∧
    (∀ t0, o.time = some t0 → o.shut t1 = some { o with time := none }) := by
  constructor
  · rfl
  · intro t0 h
    unfold Observer.shut
    rw [h]

theorem shut_ignores_time_witness :
    (({ header := ⟨0, 0, 0, 1, 0⟩, senderAlive := true, time := some 5 } : Observer Nat).shut 7
      = ({ header := ⟨0, 0, 0, 1, 0⟩, senderAlive := true, time := some 5 } : Observer Nat).shut 8) ∧
    (({ header := ⟨0, 0, 0, 1, 0⟩, senderAlive := true, time := some 5 } : Observer Nat).shut 7
      = some { header := ⟨0, 0, 0, 1, 0⟩, senderAlive := true, time := none }) :=
  ⟨(shut_ignores_time ({ header := ⟨0, 0, 0, 1, 0⟩, senderAlive := true, time := some 5 } :
      Observer Nat) 7 8).1,
   (shut_ignores_time ({ header := ⟨0, 0, 0, 1, 0⟩, senderAlive := true, time := some 5 } :
      Observer Nat) 7 8).2 5 rfl⟩

/-- C7: whenever the local endpoint has data ready, pull returns that local pair
and the network-backed inbound queue is neither consulted nor consumed from: the
result does not depend on the decoders or on the receiver contents, and the
receiver is unchanged. -/
theorem pull_prefers_local {T D : Type}
    (decT : List Nat → Option (T × List Nat)) (decD : List Nat → Option (List D))
    (p : BinaryPullable T D) (pair : T × List D) (rest : List (T × List D))
    (h : p.innerQueue = pair :: rest) :
    BinaryPullable.pull decT decD p = some (some pair, { p with innerQueue := rest }) := by
  unfold BinaryPullable.pull
  rw [h]

theorem pull_prefers_local_witness :
    BinaryPullable.pull (fun _ => none) (fun _ => none)
        ({ innerQueue := [(1, [2])], current := none, receiver := [[9]] } : BinaryPullable Nat Nat) =
      some (some (1, [2]), { innerQueue := [], current := none, receiver := [[9]] }) := by
  simpa using pull_prefers_local (fun _ => none) (fun _ => none)
    ({ innerQueue := [(1, [2])], current := none, receiver := [[9]] } : BinaryPullable Nat Nat)
    (1, [2]) [] rfl

/-- C9: for every byte buffer received from the inbound queue, a decode failure
(including a buffer truncated mid-frame), a malformed record section, or a
decoded batch that is empty is fatal (none, modelling an immediate abort): pull
never silently returns a partial or empty batch. -/
theorem pull_decode_failure_fatal {T D : Type}
    (decT : List Nat → Option (T × List Nat)) (decD : List Nat → Option (List D))
    (p : BinaryPullable T D) (bytes : List Nat) (rest : List (List Nat))
    (hinner : p.innerQueue = []) (hrecv : p.receiver = bytes :: rest) :
    (decT bytes = none → BinaryPullable.pull decT decD p = none) ∧
    (∀ t remaining, decT bytes = some (t, remaining) → decD remaining = none →
      BinaryPullable.pull decT decD p = none) ∧
    (∀ t remaining records, decT bytes = some (t, remaining) → decD remaining = some records →
      records = [] → BinaryPullable.pull decT decD p = none) := by
  refine ⟨?_, ?_, ?_⟩
  · intro h
    unfold BinaryPullable.pull
    rw [hinner, hrecv]
    simp [h]
  · intro t remaining h1 h2
    unfold BinaryPullable.pull
    rw [hinner, hrecv]
    simp [h1, h2]
  · intro t remaining records h1 h2 h3
    unfold BinaryPullable.pull
    rw [hinner, hrecv]
    simp [h1, h2, h3]

theorem pull_decode_failure_fatal_witness :
    BinaryPullable.pull (fun _ => (none : Option (Nat × List Nat))) (fun _ => (none : Option (List Nat)))
        ({ innerQueue := [], current := none, receiver := [[3]] } : BinaryPullable Nat Nat) = none :=
  (pull_decode_failure_fatal (fun _ => none) (fun _ => none)
    ({ innerQueue := [], current := none, receiver := [[3]] } : BinaryPullable Nat Nat)
    [3] [] rfl rfl).1 rfl

/- Helper lemmas about the loop iteration space and list surgery. -/

theorem gcPairs_succ (w ip : Nat) :
    gcPairs (w + 1) ip = gcPairs w ip ++ (List.range ip).map (fun c => (w, c)) := by
  unfold gcPairs
  rw [List.range_succ, List.flatMap_append]
  simp

theorem gcPairs_length (w ip : Nat) : (gcPairs w ip).length = w * ip := by
  induction w with
  | zero => simp [gcPairs]
  | succ k ih => rw [gcPairs_succ]; simp [ih, Nat.succ_mul]

theorem mem_gcPairs (w ip g c : Nat) :
    (g, c) ∈ gcPairs w ip ↔ g < w ∧ c < ip := by
  simp [gcPairs, List.mem_flatMap, List.mem_range, Prod.ext_iff]

theorem flatMap_range_block (k ip : Nat) :
    (List.range k).flatMap (fun g => (List.range ip).map (fun c => g * ip + c)) =
      List.range (k * ip) := by
  induction k with
  | zero => simp
  | succ n ih =>
    rw [List.range_succ, List.flatMap_append, ih, Nat.succ_mul, List.range_add]
    simp

theorem spliceAt_append {α : Type} (xs : List α) :
    ∀ (l1 l2 : List α), spliceAt (l1 ++ l2) l1.length xs = some (l1 ++ xs ++ l2) := by
  induction xs with
  | nil => intro l1 l2; simp [spliceAt]
  | cons x xs ih =>
    intro l1 l2
    unfold spliceAt vecInsert
    rw [if_pos (by simp)]
    rw [List.take_left, List.drop_left]
    show spliceAt (l1 ++ x :: l2) (l1.length + 1) xs = some (l1 ++ (x :: xs) ++ l2)
    have h2 : l1 ++ x :: l2 = (l1 ++ [x]) ++ l2 := by simp
    have h1 : l1.length + 1 = (l1 ++ [x]).length := by simp
    rw [h2, h1, ih (l1 ++ [x]) l2]
    simp

theorem map_skip_eq_filter (ip r : Nat) (h : r < ip) :
    (List.range (ip - 1)).map (fun j => if j < r then j else j + 1) =
      (List.range ip).filter (fun t => t ≠ r) := by
  set m := ip - 1 - r with hmdef
  have hm : ip - 1 = r + m := by omega
  have hip : ip = r + (1 + m) := by omega
  have lhs1 : (List.range r).map (fun j => if j < r then j else j + 1) = List.range r := by
    have e : (List.range r).map (fun j => if j < r then j else j + 1)
        = (List.range r).map id := by
      refine List.map_congr_left (fun j hj => ?_)
      have hjr : j < r := List.mem_range.mp hj
      simp [hjr]
    rw [e, List.map_id]
  have lhs2 : ((List.range m).map (r + ·)).map (fun j => if j < r then j else j + 1)
      = (List.range m).map (fun j => r + j + 1) := by
    rw [List.map_map]
    refine List.map_congr_left (fun j _ => ?_)
    show (if r + j < r then r + j else r + j + 1) = r + j + 1
    have : ¬ (r + j < r) := by omega
    simp [this]
  have rhs1 : (List.range r).filter (fun t => t ≠ r) = List.range r := by
    refine List.filter_eq_self.mpr (fun a ha => ?_)
    have : a < r := List.mem_range.mp ha
    simp
    omega
  have rhs2 : ((List.range (1 + m)).map (r + ·)).filter (fun t => t ≠ r)
      = (List.range m).map (fun j => r + j + 1) := by
    rw [List.range_add, List.map_append, List.filter_append]
    have e1 : ((List.range 1).map (r + ·)).filter (fun t => t ≠ r) = ([] : List Nat) := by
      simp [List.range_succ]
    have e2 : (((List.range m).map (1 + ·)).map (r + ·)).filter (fun t => t ≠ r)
        = (List.range m).map (fun j => r + j + 1) := by
      rw [List.map_map]
      rw [List.filter_eq_self.mpr (fun a ha => by
        obtain ⟨j, _, rfl⟩ := List.mem_map.mp ha
        show decide (r + (1 + j) ≠ r) = true
        simp only [ne_eq, decide_eq_true_eq]
        omega)]
      refine List.map_congr_left (fun j _ => ?_)
      show r + (1 + j) = r + j + 1
      omega
    rw [e1, e2]
    simp
  rw [hm, List.range_add, List.map_append, lhs1, lhs2]
  rw [hip, List.range_add, List.filter_append, rhs1, rhs2]

theorem length_filter_ne_range (n i : Nat) (h : i < n) :
    ((List.range n).filter (fun t => t ≠ i)).length = n - 1 := by
  induction n with
  | zero => omega
  | succ m ih =>
    rw [List.range_succ, List.filter_append]
    by_cases hc : i < m
    · have hmne : (m : Nat) ≠ i := by omega
      rw [List.length_append, ih hc]
      simp [List.filter, hmne]
      omega
    · have him : i = m := by omega
      subst him
      have h1 : (List.range i).filter (fun t => t ≠ i) = List.range i := by
        refine List.filter_eq_self.mpr (fun a ha => ?_)
        have : a < i := List.mem_range.mp ha
        simp
        omega
      rw [List.length_append, h1]
      simp

/- Lemmas about the remote-pusher loop. -/

theorem remoteFor_eq_map (b : Binary) :
    ∀ gcs : List (Nat × Nat),
      (∀ gc ∈ gcs, b.writers[gc.1]? = some true ∧ gc.1 < b.senders.length) →
      b.remoteFor gcs =
        some (gcs.map (fun gc =>
          PushEndpoint.remote (b.remoteHeader gc.1 gc.2) ((b.senders[gc.1]?).getD false))) := by
  intro gcs
  induction gcs with
  | nil => intro _; simp [Binary.remoteFor]
  | cons gc rest ih =>
    intro h
    obtain ⟨hw, hsl⟩ := h gc (List.mem_cons_self _ _)
    obtain ⟨g, c⟩ := gc
    obtain ⟨s, hs⟩ : ∃ s, b.senders[g]? = some s := ⟨_, List.getElem?_eq_getElem hsl⟩
    rw [show ((g, c) :: rest).map (fun gc =>
        PushEndpoint.remote (b.remoteHeader gc.1 gc.2) ((b.senders[gc.1]?).getD false))
      = PushEndpoint.remote (b.remoteHeader g c) ((b.senders[g]?).getD false) ::
        rest.map (fun gc =>
          PushEndpoint.remote (b.remoteHeader gc.1 gc.2) ((b.senders[gc.1]?).getD false))
      from rfl]
    simp only [Binary.remoteFor, hw, hs]
    rw [ih (fun gc hgc => h gc (List.mem_cons_of_mem _ hgc))]
    simp [hs]

theorem remoteFor_some_writers (b : Binary) :
    ∀ gcs l, b.remoteFor gcs = some l → ∀ gc ∈ gcs, b.writers[gc.1]? = some true := by
  intro gcs
  induction gcs with
  | nil => intro l _ gc hgc; cases hgc
  | cons gc0 rest ih =>
    intro l h gc hgc
    obtain ⟨g, c⟩ := gc0
    cases hw : b.writers[g]? with
    | none => simp [Binary.remoteFor, hw] at h
    | some w =>
      cases w with
      | false => simp [Binary.remoteFor, hw] at h
      | true =>
        cases hs : b.senders[g]? with
        | none => simp [Binary.remoteFor, hw, hs] at h
        | some s =>
          simp only [Binary.remoteFor, hw, hs, if_true] at h
          rcases List.mem_cons.mp hgc with h1 | h2
          · subst h1; exact hw
          · obtain ⟨l', hl', _⟩ := Option.map_eq_some'.mp h
            exact ih l' hl' gc h2

theorem remoteFor_channels (b : Binary) :
    ∀ gcs l, b.remoteFor gcs = some l →
      ∀ p ∈ l, ∀ hd al, p = PushEndpoint.remote hd al → hd.channel = b.allocated := by
  intro gcs
  induction gcs with
  | nil =>
    intro l h p hp hd al hpe
    simp [Binary.remoteFor] at h
    subst h
    cases hp
  | cons gc0 rest ih =>
    intro l h p hp hd al hpe
    obtain ⟨g, c⟩ := gc0
    cases hw : b.writers[g]? with
    | none => simp [Binary.remoteFor, hw] at h
    | some w =>
      cases w with
      | false => simp [Binary.remoteFor, hw] at h
      | true =>
        cases hs : b.senders[g]? with
        | none => simp [Binary.remoteFor, hw, hs] at h
        | some s =>
          simp only [Binary.remoteFor, hw, hs, if_true] at h
          obtain ⟨l', hl', hcons⟩ := Option.map_eq_some'.mp h
          subst hcons
          rcases List.mem_cons.mp hp with h1 | h2
          · rw [h1] at hpe
            have : hd = b.remoteHeader g c := by
              cases hpe
              rfl
            rw [this]
            rfl
          · exact ih l' hl' p h2 hd al hpe

theorem vecInsert_mem {α : Type} (xs res : List α) (i : Nat) (x y : α)
    (h : vecInsert xs i x = some res) (hy : y ∈ res) : y = x ∨ y ∈ xs := by
  unfold vecInsert at h
  by_cases hi : i ≤ xs.length
  · rw [if_pos hi] at h
    obtain rfl := Option.some_inj.mp h
    rcases List.mem_append.mp hy with h1 | h2
    · right
      exact List.take_subset _ _ h1
    · rcases List.mem_cons.mp h2 with h3 | h4
      · left; exact h3
      · right
        exact List.drop_subset _ _ h4
  · rw [if_neg hi] at h
    cases h

theorem spliceAt_mem {α : Type} (xs : List α) :
    ∀ (acc : List α) (pos : Nat) (res : List α), spliceAt acc pos xs = some res →
      ∀ y ∈ res, y ∈ acc ∨ y ∈ xs := by
  induction xs with
  | nil =>
    intro acc pos res h y hy
    simp [spliceAt] at h
    subst h
    exact Or.inl hy
  | cons x xs ih =>
    intro acc pos res h y hy
    unfold spliceAt at h
    cases hv : vecInsert acc pos x with
    | none => rw [hv] at h; cases h
    | some acc2 =>
      rw [hv] at h
      rcases ih acc2 (pos + 1) res h y hy with h1 | h2
      · rcases vecInsert_mem acc acc2 pos x y hv h1 with h3 | h4
        · right; rw [h3]; exact List.mem_cons_self _ _
        · left; exact h4
      · right; exact List.mem_cons_of_mem _ h2

theorem flatMap_congr_mem {α β : Type} (l : List α) (f g : α → List β)
    (h : ∀ a ∈ l, f a = g a) : l.flatMap f = l.flatMap g := by
  induction l with
  | nil => rfl
  | cons x xs ih =>
    rw [List.flatMap_cons, List.flatMap_cons, h x (List.mem_cons_self _ _),
      ih (fun a ha => h a (List.mem_cons_of_mem _ ha))]

theorem spliceAt_take_drop {α : Type} (acc : List α) (p : Nat) (xs : List α)
    (hp : p ≤ acc.length) :
    spliceAt acc p xs = some (acc.take p ++ xs ++ acc.drop p) := by
  have h1 : (acc.take p).length = p := by
    rw [List.length_take]
    omega
  have h2 := spliceAt_append xs (acc.take p) (acc.drop p)
  rw [h1, List.take_append_drop] at h2
  exact h2

/- The remote destination sequence: all global indices below the local group's
block, then all indices above it, in order. -/
theorem remoteDests_split (W ip og : Nat) (hogW : og ≤ W) :
    (gcPairs W ip).map (fun gc => if og ≤ gc.1 then gc.1 * ip + gc.2 + ip else gc.1 * ip + gc.2)
      = List.range (og * ip) ++ (List.range ((W - og) * ip)).map (fun j => (og + 1) * ip + j) := by
  have e1 : List.range W = List.range og ++ (List.range (W - og)).map (og + ·) := by
    have e : W = og + (W - og) := by omega
    conv_lhs => rw [e]
    exact List.range_add og (W - og)
  unfold gcPairs
  rw [e1, List.flatMap_append, List.flatMap_map, List.map_append, List.map_flatMap,
    List.map_flatMap]
  congr 1
  · rw [flatMap_congr_mem _ _ (fun g => (List.range ip).map (fun c => g * ip + c))
      (fun g hg => ?_)]
    · exact flatMap_range_block og ip
    · have hgo : g < og := List.mem_range.mp hg
      rw [List.map_map]
      refine List.map_congr_left (fun c _ => ?_)
      show (if og ≤ g then g * ip + c + ip else g * ip + c) = g * ip + c
      have hn : ¬ (og ≤ g) := by omega
      simp [hn]
  · rw [flatMap_congr_mem _ _
      (fun a => ((List.range ip).map (fun c => a * ip + c)).map (fun j => (og + 1) * ip + j))
      (fun a _ => ?_)]
    · rw [← List.map_flatMap, flatMap_range_block]
    · show ((List.range ip).map (fun c => (og + a, c))).map
          (fun gc => if og ≤ gc.1 then gc.1 * ip + gc.2 + ip else gc.1 * ip + gc.2)
        = ((List.range ip).map (fun c => a * ip + c)).map (fun j => (og + 1) * ip + j)
      rw [List.map_map, List.map_map]
      refine List.map_congr_left (fun c _ => ?_)
      show (if og ≤ og + a then (og + a) * ip + c + ip else (og + a) * ip + c)
        = (og + 1) * ip + (a * ip + c)
      have hy : og ≤ og + a := Nat.le_add_right _ _
      rw [if_pos hy, Nat.add_mul, Nat.add_mul, Nat.one_mul]
      omega

/- The three destination blocks together are exactly the global index range with
the caller's own index removed. -/
theorem dest_blocks_eq_filter (W ip og r : Nat) (hogW : og ≤ W) (hrip : r < ip) :
    List.range (og * ip)
      ++ ((List.range ip).filter (fun t => t ≠ r)).map (fun j => og * ip + j)
      ++ (List.range ((W - og) * ip)).map (fun j => (og + 1) * ip + j)
    = (List.range ((W + 1) * ip)).filter (fun t => t ≠ og * ip + r) := by
  have hN : (W + 1) * ip = og * ip + (ip + (W - og) * ip) := by
    have e : og + (1 + (W - og)) = W + 1 := by omega
    calc (W + 1) * ip = (og + (1 + (W - og))) * ip := by rw [e]
      _ = og * ip + (1 + (W - og)) * ip := by rw [Nat.add_mul]
      _ = og * ip + (ip + (W - og) * ip) := by rw [Nat.add_mul, Nat.one_mul]
  rw [hN, List.range_add, List.filter_append, List.range_add, List.map_append,
    List.filter_append]
  have p1 : (List.range (og * ip)).filter (fun t => t ≠ og * ip + r) = List.range (og * ip) := by
    refine List.filter_eq_self.mpr (fun a ha => ?_)
    have : a < og * ip := List.mem_range.mp ha
    simp only [ne_eq, decide_eq_true_eq]
    omega
  have p2 : ((List.range ip).map (og * ip + ·)).filter (fun t => t ≠ og * ip + r)
      = ((List.range ip).filter (fun t => t ≠ r)).map (fun j => og * ip + j) := by
    rw [List.filter_map]
    congr 1
    refine List.filter_congr (fun c _ => ?_)
    show decide (og * ip + c ≠ og * ip + r) = decide (c ≠ r)
    by_cases hcr : c = r
    · simp [hcr]
    · have : og * ip + c ≠ og * ip + r := by omega
      simp [hcr, this]
  have p3 : (((List.range ((W - og) * ip)).map (ip + ·)).map (og * ip + ·)).filter
        (fun t => t ≠ og * ip + r)
      = (List.range ((W - og) * ip)).map (fun j => (og + 1) * ip + j) := by
    rw [List.map_map]
    rw [List.filter_eq_self.mpr (fun a ha => ?_)]
    · refine List.map_congr_left (fun j _ => ?_)
      show og * ip + (ip + j) = (og + 1) * ip + j
      rw [Nat.add_mul, Nat.one_mul]
      omega
    · obtain ⟨j, _, rfl⟩ := List.mem_map.mp ha
      show decide (og * ip + (ip + j) ≠ og * ip + r) = true
      simp only [ne_eq, decide_eq_true_eq]
      omega
  rw [p1, p2, p3, List.append_assoc]

/- Structural result: under a well-formed all-alive configuration, new_channel
succeeds and the destinations of its push endpoints are exactly all global
worker indices except the caller's own, in that order. -/
theorem newChannel_explicit (T D : Type) (b : Binary)
    (hip : 0 < b.innerPeers)
    (hidx : b.index < (b.writers.length + 1) * b.innerPeers)
    (hw : ∀ x ∈ b.writers, x = true)
    (hr : ∀ x ∈ b.readers, x = true)
    (hsl : b.writers.length ≤ b.senders.length) :
    ∃ a : ChannelAlloc T D, b.newChannel T D = some a ∧
      a.pushers.map (PushEndpoint.dest (b.index / b.innerPeers) b.innerPeers
          (b.index % b.innerPeers))
        = (List.range ((b.writers.length + 1) * b.innerPeers)).filter
            (fun t => t ≠ b.index) := by
  have hogW : b.index / b.innerPeers ≤ b.writers.length := by
    have h2 : b.index / b.innerPeers < b.writers.length + 1 :=
      (Nat.div_lt_iff_lt_mul hip).mpr hidx
    omega
  have hrip : b.index % b.innerPeers < b.innerPeers := Nat.mod_lt _ hip
  have hcond : ∀ gc ∈ gcPairs b.writers.length b.innerPeers,
      b.writers[gc.1]? = some true ∧ gc.1 < b.senders.length := by
    intro gc hgc
    obtain ⟨g, c⟩ := gc
    have hg := ((mem_gcPairs _ _ g c).mp hgc).1
    refine ⟨?_, by omega⟩
    rw [List.getElem?_eq_getElem hg, hw _ (List.getElem_mem hg)]
  have hremote := remoteFor_eq_map b (gcPairs b.writers.length b.innerPeers) hcond
  have hlen : ((gcPairs b.writers.length b.innerPeers).map (fun gc =>
      PushEndpoint.remote (b.remoteHeader gc.1 gc.2) ((b.senders[gc.1]?).getD false))).length
      = b.writers.length * b.innerPeers := by
    rw [List.length_map, gcPairs_length]
  have hsplice := spliceAt_take_drop ((gcPairs b.writers.length b.innerPeers).map (fun gc =>
      PushEndpoint.remote (b.remoteHeader gc.1 gc.2) ((b.senders[gc.1]?).getD false)))
    ((b.index / b.innerPeers) * b.innerPeers) (innerSendEndpoints b.innerPeers)
    (by rw [hlen]; exact Nat.mul_le_mul_right _ hogW)
  have hreaders : b.readers.all (fun x => x) = true := by
    rw [List.all_eq_true]
    intro x hx
    exact hr x hx
  refine ⟨{ pushers := ((gcPairs b.writers.length b.innerPeers).map (fun gc =>
              PushEndpoint.remote (b.remoteHeader gc.1 gc.2) ((b.senders[gc.1]?).getD false))).take
                ((b.index / b.innerPeers) * b.innerPeers)
              ++ innerSendEndpoints b.innerPeers
              ++ ((gcPairs b.writers.length b.innerPeers).map (fun gc =>
              PushEndpoint.remote (b.remoteHeader gc.1 gc.2) ((b.senders[gc.1]?).getD false))).drop
                ((b.index / b.innerPeers) * b.innerPeers)
          , writerRegs := List.replicate (b.writers.length * b.innerPeers)
              (b.index, b.graph, b.allocated)
          , readerRegs := List.replicate b.readers.length (b.index, b.graph, b.allocated)
          , pullable := { innerQueue := [], current := none, receiver := [] }
          , state := { b with allocated := b.allocated + 1 } }, ?_, ?_⟩
  · simp only [Binary.newChannel, hremote, hsplice, hreaders, if_true]
  · show ((((gcPairs b.writers.length b.innerPeers).map (fun gc =>
          PushEndpoint.remote (b.remoteHeader gc.1 gc.2) ((b.senders[gc.1]?).getD false))).take
            ((b.index / b.innerPeers) * b.innerPeers)
        ++ innerSendEndpoints b.innerPeers
        ++ ((gcPairs b.writers.length b.innerPeers).map (fun gc =>
          PushEndpoint.remote (b.remoteHeader gc.1 gc.2) ((b.senders[gc.1]?).getD false))).drop
            ((b.index / b.innerPeers) * b.innerPeers)).map
        (PushEndpoint.dest (b.index / b.innerPeers) b.innerPeers (b.index % b.innerPeers)))
      = (List.range ((b.writers.length + 1) * b.innerPeers)).filter (fun t => t ≠ b.index)
    rw [List.map_append, List.map_append, List.map_take, List.map_drop]
    have hdest : ((gcPairs b.writers.length b.innerPeers).map (fun gc =>
        PushEndpoint.remote (b.remoteHeader gc.1 gc.2) ((b.senders[gc.1]?).getD false))).map
          (PushEndpoint.dest (b.index / b.innerPeers) b.innerPeers (b.index % b.innerPeers))
        = (gcPairs b.writers.length b.innerPeers).map
            (fun gc => if b.index / b.innerPeers ≤ gc.1
              then gc.1 * b.innerPeers + gc.2 + b.innerPeers
              else gc.1 * b.innerPeers + gc.2) := by
      rw [List.map_map]
      rfl
    rw [hdest, remoteDests_split b.writers.length b.innerPeers (b.index / b.innerPeers) hogW]
    rw [List.take_left' (List.length_range _), List.drop_left' (List.length_range _)]
    have hmid : (innerSendEndpoints b.innerPeers).map
        (PushEndpoint.dest (b.index / b.innerPeers) b.innerPeers (b.index % b.innerPeers))
        = ((List.range b.innerPeers).filter (fun t => t ≠ b.index % b.innerPeers)).map
            (fun j => (b.index / b.innerPeers) * b.innerPeers + j) := by
      unfold innerSendEndpoints
      rw [List.map_map, ← map_skip_eq_filter b.innerPeers (b.index % b.innerPeers) hrip,
        List.map_map]
      rfl
    rw [hmid]
    have hblocks := dest_blocks_eq_filter b.writers.length b.innerPeers
      (b.index / b.innerPeers) (b.index % b.innerPeers) hogW hrip
    rw [Nat.div_add_mod'] at hblocks
    exact hblocks

/-- C1: for every peer-group count, every inner_peers size, and every caller
group position (first, middle, or last), the push-endpoint sequence returned by
new_channel is ordered by destination global worker index: the remote endpoint
for connection-list index g and local offset c targets g * inner_peers + c,
shifted up by inner_peers when g >= own group index (own group =
index / inner_peers), the local endpoints are spliced in at positions
(index / inner_peers) * inner_peers + offset, and the destination sequence is
exactly the increasing enumeration of all global worker indices other than the
caller's own. -/
theorem newChannel_push_order (T D : Type) (b : Binary)
    (hip : 0 < b.innerPeers)
    (hidx : b.index < (b.writers.length + 1) * b.innerPeers)
    (hw : ∀ x ∈ b.writers, x = true)
    (hr : ∀ x ∈ b.readers, x = true)
    (hsl : b.writers.length ≤ b.senders.length) :
    ∃ a : ChannelAlloc T D, b.newChannel T D = some a ∧
      a.pushers.map (PushEndpoint.dest (b.index / b.innerPeers) b.innerPeers
          (b.index % b.innerPeers))
        = (List.range ((b.writers.length + 1) * b.innerPeers)).filter (fun t => t ≠ b.index) ∧
      List.Pairwise (· < ·)
        (a.pushers.map (PushEndpoint.dest (b.index / b.innerPeers) b.innerPeers
          (b.index % b.innerPeers))) := by
  obtain ⟨a, h1, h2⟩ := newChannel_explicit T D b hip hidx hw hr hsl
  refine ⟨a, h1, h2, ?_⟩
  rw [h2]
  exact List.Pairwise.sublist (List.filter_sublist _) (List.pairwise_lt_range _)

theorem newChannel_push_order_witness :
    ∃ a : ChannelAlloc Nat Nat, bMid.newChannel Nat Nat = some a ∧
      a.pushers.map (PushEndpoint.dest (bMid.index / bMid.innerPeers) bMid.innerPeers
          (bMid.index % bMid.innerPeers))
        = (List.range ((bMid.writers.length + 1) * bMid.innerPeers)).filter
            (fun t => t ≠ bMid.index) ∧
      List.Pairwise (· < ·)
        (a.pushers.map (PushEndpoint.dest (bMid.index / bMid.innerPeers) bMid.innerPeers
          (bMid.index % bMid.innerPeers))) :=
  newChannel_push_order Nat Nat bMid (by decide) (by decide) (by decide) (by decide) (by decide)

/- Helper: a successful new_channel call returns the one freshly created pull
endpoint (empty queues). -/
theorem newChannel_pullable (T D : Type) (b : Binary) (a : ChannelAlloc T D)
    (h : b.newChannel T D = some a) :
    a.pullable = { innerQueue := [], current := none, receiver := [] } := by
  cases hrf : b.remoteFor (gcPairs b.writers.length b.innerPeers) with
  | none => exact absurd h (by simp [Binary.newChannel, hrf])
  | some remotes =>
    cases hsp : spliceAt remotes ((b.index / b.innerPeers) * b.innerPeers)
        (innerSendEndpoints b.innerPeers) with
    | none => exact absurd h (by simp [Binary.newChannel, hrf, hsp])
    | some ps =>
      by_cases hra : b.readers.all (fun x => x) = true
      · simp only [Binary.newChannel, hrf, hsp, hra, if_true, Option.some.injEq] at h
        rw [← h]
      · exact absurd h (by simp [Binary.newChannel, hrf, hsp, hra])

/-- C2: for a worker in a cluster of N = peers total workers (peers = number of
peer groups times inner_peers), each successful new_channel call yields exactly
N - 1 push endpoints, one per peer worker excluding the caller, plus the one
pull endpoint carried in the allocation record. -/
theorem newChannel_count (T D : Type) (b : Binary)
    (hip : 0 < b.innerPeers)
    (hpeers : b.peers = (b.writers.length + 1) * b.innerPeers)
    (hidx : b.index < b.peers)
    (hw : ∀ x ∈ b.writers, x = true)
    (hr : ∀ x ∈ b.readers, x = true)
    (hsl : b.writers.length ≤ b.senders.length) :
    ∃ a : ChannelAlloc T D, b.newChannel T D = some a ∧
      a.pushers.length = b.peers - 1 ∧
      a.pullable = { innerQueue := [], current := none, receiver := [] } := by
  have hidx2 : b.index < (b.writers.length + 1) * b.innerPeers := hpeers ▸ hidx
  obtain ⟨a, h1, h2⟩ := newChannel_explicit T D b hip hidx2 hw hr hsl
  refine ⟨a, h1, ?_, ?_⟩
  · have hlen : a.pushers.length
        = ((List.range ((b.writers.length + 1) * b.innerPeers)).filter
            (fun t => t ≠ b.index)).length := by
      rw [← h2, List.length_map]
    rw [hlen, length_filter_ne_range _ _ hidx2, ← hpeers]
  · exact newChannel_pullable T D b a h1

theorem newChannel_count_witness :
    ∃ a : ChannelAlloc Nat Nat, bMid.newChannel Nat Nat = some a ∧
      a.pushers.length = bMid.peers - 1 ∧
      a.pullable = { innerQueue := [], current := none, receiver := [] } :=
  newChannel_count Nat Nat bMid (by decide) (by decide) (by decide) (by decide) (by decide)
    (by decide)

/- Helper: every channel id appearing in a successful new_channel call's headers
and registration messages is that call's counter value, and the counter advances
by one. -/
theorem newChannel_stamps (T D : Type) (b : Binary) (a : ChannelAlloc T D)
    (h : b.newChannel T D = some a) :
    (∀ p ∈ a.pushers, ∀ hd al, p = PushEndpoint.remote hd al → hd.channel = b.allocated) ∧
    (∀ m ∈ a.writerRegs, m.2.2 = b.allocated) ∧
    (∀ m ∈ a.readerRegs, m.2.2 = b.allocated) ∧
    a.state.allocated = b.allocated + 1 := by
  cases hrf : b.remoteFor (gcPairs b.writers.length b.innerPeers) with
  | none => exact absurd h (by simp [Binary.newChannel, hrf])
  | some remotes =>
    cases hsp : spliceAt remotes ((b.index / b.innerPeers) * b.innerPeers)
        (innerSendEndpoints b.innerPeers) with
    | none => exact absurd h (by simp [Binary.newChannel, hrf, hsp])
    | some ps =>
      by_cases hra : b.readers.all (fun x => x) = true
      · simp only [Binary.newChannel, hrf, hsp, hra, if_true, Option.some.injEq] at h
        subst h
        refine ⟨?_, ?_, ?_, rfl⟩
        · intro p hp hd al hpe
          rcases spliceAt_mem _ _ _ _ hsp p hp with h1 | h2
          · exact remoteFor_channels b _ _ hrf p h1 hd al hpe
          · exfalso
            have h3 := h2
            unfold innerSendEndpoints at h3
            obtain ⟨j, _, hje⟩ := List.mem_map.mp h3
            rw [hpe] at hje
            simp at hje
        · intro m hm
          rw [List.eq_of_mem_replicate hm]
        · intro m hm
          rw [List.eq_of_mem_replicate hm]
      · exact absurd h (by simp [Binary.newChannel, hrf, hsp, hra])

/-- C8: for every sequence of successful new_channel calls on one worker, the
channel ids stamped into the created headers and registration messages are the
counter value at each call: the i-th call stamps initial allocated + i
everywhere and leaves the counter at initial allocated + i + 1, so ids are
strictly increasing across calls and never reused. -/
theorem channel_ids_monotone (T D : Type) (k : Nat) :
    ∀ (b : Binary) (allocs : List (ChannelAlloc T D)) (bk : Binary),
      Binary.runChannels T D b k = some (allocs, bk) →
      allocs.length = k ∧ bk.allocated = b.allocated + k ∧
      ∀ i (hi : i < allocs.length),
        (allocs.get ⟨i, hi⟩).state.allocated = b.allocated + i + 1 ∧
        (∀ p ∈ (allocs.get ⟨i, hi⟩).pushers, ∀ hd al,
          p = PushEndpoint.remote hd al → hd.channel = b.allocated + i) ∧
        (∀ m ∈ (allocs.get ⟨i, hi⟩).writerRegs, m.2.2 = b.allocated + i) ∧
        (∀ m ∈ (allocs.get ⟨i, hi⟩).readerRegs, m.2.2 = b.allocated + i) := by
  induction k with
  | zero =>
    intro b allocs bk h
    simp only [Binary.runChannels, Option.some.injEq, Prod.mk.injEq] at h
    obtain ⟨rfl, rfl⟩ := h
    refine ⟨rfl, by omega, ?_⟩
    intro i hi
    exact absurd hi (by simp)
  | succ n ih =>
    intro b allocs bk h
    cases hnc : b.newChannel T D with
    | none => simp [Binary.runChannels, hnc] at h
    | some a =>
      cases hrun : Binary.runChannels T D a.state n with
      | none => simp [Binary.runChannels, hnc, hrun] at h
      | some pr =>
        obtain ⟨rest, bk2⟩ := pr
        simp only [Binary.runChannels, hnc, hrun, Option.some.injEq, Prod.mk.injEq] at h
        obtain ⟨rfl, rfl⟩ := h
        obtain ⟨hp1, hp2, hp3, hp4⟩ := newChannel_stamps T D b a hnc
        obtain ⟨hlen, halloc, hidx⟩ := ih a.state rest bk2 hrun
        refine ⟨by simp [hlen], by omega, ?_⟩
        intro i hi
        cases i with
        | zero =>
          refine ⟨by simpa using hp4, ?_, ?_, ?_⟩
          · intro p hp hd al hpe
            simpa using hp1 p (by simpa using hp) hd al hpe
          · intro m hm
            simpa using hp2 m (by simpa using hm)
          · intro m hm
            simpa using hp3 m (by simpa using hm)
        | succ j =>
          have hj : j < rest.length := by simpa using hi
          obtain ⟨q1, q2, q3, q4⟩ := hidx j hj
          rw [hp4] at q1
          refine ⟨?_, ?_, ?_, ?_⟩
          · show (rest.get ⟨j, hj⟩).state.allocated = b.allocated + (j + 1) + 1
            omega
          · intro p hp hd al hpe
            show hd.channel = b.allocated + (j + 1)
            have := q2 p (by simpa using hp) hd al hpe
            rw [hp4] at this
            omega
          · intro m hm
            show m.2.2 = b.allocated + (j + 1)
            have := q3 m (by simpa using hm)
            rw [hp4] at this
            omega
          · intro m hm
            show m.2.2 = b.allocated + (j + 1)
            have := q4 m (by simpa using hm)
            rw [hp4] at this
            omega

theorem channel_ids_monotone_witness :
    ∃ pr : List (ChannelAlloc Nat Nat) × Binary,
      Binary.runChannels Nat Nat bSmall 2 = some pr ∧
      pr.1.length = 2 ∧ pr.2.allocated = bSmall.allocated + 2 := by
  cases hrun : Binary.runChannels Nat Nat bSmall 2 with
  | none => exact absurd hrun (by decide)
  | some pr =>
    obtain ⟨allocs, bk⟩ := pr
    obtain ⟨h1, h2, _⟩ := channel_ids_monotone Nat Nat 2 bSmall allocs bk hrun
    exact ⟨(allocs, bk), rfl, h1, h2⟩

/- Helper: a dead writer network thread makes new_channel abort, because the
registration send through that writer channel is unwrapped. -/
theorem newChannel_dead_writer (T D : Type) (b : Binary) (g : Nat)
    (hg : b.writers[g]? = some false) (hip : 0 < b.innerPeers) :
    b.newChannel T D = none := by
  cases hrf : b.remoteFor (gcPairs b.writers.length b.innerPeers) with
  | none => simp [Binary.newChannel, hrf]
  | some l =>
    exfalso
    have hgW : g < b.writers.length := by
      by_contra hc
      rw [List.getElem?_eq_none (by omega)] at hg
      cases hg
    have hmem : (g, 0) ∈ gcPairs b.writers.length b.innerPeers :=
      (mem_gcPairs _ _ g 0).mpr ⟨hgW, hip⟩
    have := remoteFor_some_writers b _ l hrf (g, 0) hmem
    simp [hg] at this

/- Helper: a dead reader network thread makes new_channel abort, because the
registration send through each reader channel is unwrapped. -/
theorem newChannel_dead_reader (T D : Type) (b : Binary)
    (hra : (b.readers.all fun x => x) = false) :
    b.newChannel T D = none := by
  cases hrf : b.remoteFor (gcPairs b.writers.length b.innerPeers) with
  | none => simp [Binary.newChannel, hrf]
  | some l =>
    cases hsp : spliceAt l ((b.index / b.innerPeers) * b.innerPeers)
        (innerSendEndpoints b.innerPeers) with
    | none => simp [Binary.newChannel, hrf, hsp]
    | some ps => simp [Binary.newChannel, hrf, hsp, hra]

/-- C3 counterexample: in a configuration whose writer network thread has
exited (bDeadWriter), the registration send inside new_channel aborts (none,
modelling the unwrap panic) instead of being silently dropped, while the
identical configuration with the thread alive (bAllAlive) succeeds. -/
theorem registration_abort_cex :
    Binary.newChannel Nat Nat bDeadWriter = none ∧
    (Binary.newChannel Nat Nat bAllAlive).isSome = true := by decide

/-- C3 amended: an outbound send from give against an exited peer is silently
dropped (give returns normally with nothing enqueued and no error), but the
registration sends of new_channel are unwrapped rather than dropped: a dead
writer thread (with inner_peers > 0) or a dead reader thread makes new_channel
abort. -/
theorem dead_peer_handling (T D : Type) (encT : T → List Nat) (encD : List D → List Nat)
    (o : Observer T) (t : T) (data : List D)
    (hopen : o.time = some t) (hdead : o.senderAlive = false) :
    (∃ n, Observer.give encT encD o data = some (o, [], n)) ∧
    (∀ b : Binary, ∀ g : Nat, b.writers[g]? = some false → 0 < b.innerPeers →
      b.newChannel T D = none) ∧
    (∀ b : Binary, (b.readers.all fun x => x) = false → b.newChannel T D = none) := by
  refine ⟨?_, fun b g hg hip => newChannel_dead_writer T D b g hg hip,
    fun b hra => newChannel_dead_reader T D b hra⟩
  unfold Observer.give
  rw [hopen, hdead]
  by_cases hd : 0 < data.length
  · exact ⟨1, by simp [hd]⟩
  · exact ⟨0, by simp [hd]⟩

theorem dead_peer_handling_witness :
    (∃ n, Observer.give (fun t => [t]) (fun l => l)
        ({ header := ⟨0, 0, 0, 1, 0⟩, senderAlive := false, time := some 3 } : Observer Nat)
        [1] = some ({ header := ⟨0, 0, 0, 1, 0⟩, senderAlive := false, time := some 3 }, [], n)) ∧
    Binary.newChannel Nat Nat bDeadReader = none := by
  obtain ⟨h1, _, h3⟩ := dead_peer_handling Nat Nat (fun t => [t]) (fun l => l)
    ({ header := ⟨0, 0, 0, 1, 0⟩, senderAlive := false, time := some 3 } : Observer Nat)
    3 [1] rfl rfl
  exact ⟨h1, h3 bDeadReader (by decide)⟩
